import Mathlib

/-!
Shallow embedding of the Blood runtime shim (src/runtime/runtime.c) and
proofs about its specified properties.

Modelling conventions:
- A C byte is a Nat (value of an unsigned char).
- A C string argument (const char pointer) is an Option (List Nat):
  none models a NULL pointer, some bs models a pointer to a buffer whose
  bytes are bs followed by a terminating nul.  The text a C string denotes
  is the prefix of its buffer before the first nul, computed by
  cstrContents; strlen is the length of that prefix.
- Machine integers are Nat / Int with explicit reduction modulo 2 ^ w
  where the machine would wrap.
- Memory (for the pointer intrinsics) is a total function from byte
  addresses to byte values; multi-byte accesses are little-endian, the
  byte order of the reference platform.
-/

namespace Blood

/-- A byte list denotes a nul-free text when no element is the nul byte. -/
def nulFree (s : List Nat) : Prop := ∀ x ∈ s, x ≠ 0

instance (s : List Nat) : Decidable (nulFree s) := by
  unfold nulFree; infer_instance

/-- The bytes a C string buffer denotes: the prefix before the first nul.
This is what strlen measures and what memcpy of strlen-many bytes copies. -/
def cstrContents (s : List Nat) : List Nat := s.takeWhile (fun b => b != 0)

/-- strlen: number of bytes before the first nul. -/
def strlen (s : List Nat) : Nat := (cstrContents s).length

/-- normalize, from the spec: an absent input denotes the empty text,
a present input denotes its buffer. -/
def normalize (a : Option (List Nat)) : List Nat := a.getD []

/-- Embedding of blood_str_concat (src/runtime/runtime.c:31-40):
a NULL argument is replaced by the empty string, then the strlen-prefixes
of both arguments are copied back to back into a fresh buffer.  The
result is the byte contents of that buffer (before its terminating nul). -/
def blood_str_concat (a b : Option (List Nat)) : List Nat :=
  cstrContents (a.getD []) ++ cstrContents (b.getD [])

/-- Embedding of blood_str_len (src/runtime/runtime.c:70-72):
strlen of a present argument, 0 for NULL. -/
def blood_str_len (s : Option (List Nat)) : Nat :=
  match s with
  | none => 0
  | some s => strlen s

/-- Three-way byte comparison of two nul-free byte lists, the behaviour of
strcmp on the denoted texts (sign-normalized: strcmp only promises the
sign of its result). -/
def cmpBytes : List Nat → List Nat → Int
  | [], [] => 0
  | [], _ :: _ => -1
  | _ :: _, [] => 1
  | a :: as, b :: bs => if a < b then -1 else if b < a then 1 else cmpBytes as bs

/-- Embedding of blood_str_cmp (src/runtime/runtime.c:75-80):
NULL = NULL, NULL before any present value, otherwise strcmp, which
compares the nul-terminated contents byte-lexicographically. -/
def blood_str_cmp (a b : Option (List Nat)) : Int :=
  match a, b with
  | none, none => 0
  | none, some _ => -1
  | some _, none => 1
  | some a, some b => cmpBytes (cstrContents a) (cstrContents b)

/-! ### Decimal rendering (printf %d / %ld) -/

/-- Base-10 digits of a Nat, least significant first, with explicit fuel
so the definition is structural and kernel-evaluable.  digitsAux f n is
the digit list of n whenever n ≤ f. -/
def digitsAux : Nat → Nat → List Nat
  | _, 0 => []
  | 0, _ + 1 => []
  | f + 1, n + 1 => ((n + 1) % 10) :: digitsAux f ((n + 1) / 10)

/-- Base-10 digits of a Nat, least significant first (empty for 0). -/
def digits10 (n : Nat) : List Nat := digitsAux n n

/-- ASCII digit character for a digit value. -/
def digitChar (d : Nat) : Char := Char.ofNat (48 + d)

/-- Decimal rendering of a Nat, as printf %u would produce it. -/
def decStrOfNat (n : Nat) : List Char :=
  if n = 0 then ['0'] else ((digits10 n).reverse.map digitChar)

/-- Decimal rendering of an Int, as printf %d / %ld would produce it for
an in-range argument: optional minus sign followed by the digits of the
absolute value. -/
def intToDecStr (v : Int) : List Char :=
  if v < 0 then '-' :: decStrOfNat v.natAbs else decStrOfNat v.natAbs

/-- Embedding of blood_int_to_str (src/runtime/runtime.c:43-49):
snprintf of the value with format %d into a 32-byte buffer (snprintf
keeps at most 31 characters plus the terminator), then a copy of the
buffer into an exactly sized owned allocation.  The result is the byte
contents of that allocation. -/
def blood_int_to_str (n : Int) : List Char := (intToDecStr n).take 31

/-- Embedding of blood_i64_to_str (src/runtime/runtime.c:52-58):
identical to blood_int_to_str but for a 64-bit argument (format %ld,
same 32-byte buffer). -/
def blood_i64_to_str (n : Int) : List Char := (intToDecStr n).take 31

/-! ### The %g conversion (printf, C99 semantics, default precision 6)

blood_f64_to_str receives a double.  Every finite double is exactly a
dyadic rational m * 2 ^ e, so the model takes the pair (m, e) and
performs the %g conversion with exact integer arithmetic: find the
decimal exponent X of the value, correctly round the value to 6
significant decimal digits, then lay the digits out in style f when
-4 ≤ X < 6 and in style e otherwise, stripping trailing zeros and a
trailing decimal point. -/

/-- Does 10 ^ k ≤ m * 2 ^ e hold (m a positive Nat, k e signed)?
Both sides are cleared of negative exponents before comparing. -/
def tenPowLe (k : Int) (m : Nat) (e : Int) : Bool :=
  10 ^ k.toNat * 2 ^ (-e).toNat ≤ m * 2 ^ e.toNat * 10 ^ (-k).toNat

/-- Greatest X ≤ hi with 10 ^ X ≤ m * 2 ^ e, found by bounded downward
search. -/
def decExpSearch : Nat → Int → Nat → Int → Int
  | 0, x, _, _ => x
  | f + 1, x, m, e => if tenPowLe x m e then x else decExpSearch f (x - 1) m e

/-- Decimal exponent of the positive value m * 2 ^ e: the X with
10 ^ X ≤ m * 2 ^ e < 10 ^ (X + 1).  The search starts at the upper bound
digits10 m + max e 0 (since m * 2 ^ e < 10 ^ (digits10 m) * 10 ^ max e 0)
and the fuel digits10 m + |e| + 1 reaches every possible X, because
X ≥ min e 0 always holds (2 ^ e ≥ 10 ^ e for e ≤ 0). -/
def decExp (m : Nat) (e : Int) : Int :=
  decExpSearch ((digits10 m).length + e.toNat + (-e).toNat + 1)
    ((digits10 m).length + e.toNat) m e

/-- Round n / d (d > 0) to the nearest integer, ties to even — the
correct rounding printf applies in the default rounding mode. -/
def roundHalfEvenN (n d : Nat) : Nat :=
  let q := n / d
  let r := 2 * (n % d)
  if r < d then q else if d < r then q + 1 else if q % 2 = 0 then q else q + 1

/-- The value m * 2 ^ e * 10 ^ s rounded to the nearest Nat, ties to
even, computed exactly. -/
def roundScaled (m : Nat) (e s : Int) : Nat :=
  roundHalfEvenN (m * 2 ^ e.toNat * 10 ^ s.toNat) (2 ^ (-e).toNat * 10 ^ (-s).toNat)

/-- The 6 significant decimal digits of the positive value m * 2 ^ e
(as a Nat in [10 ^ 5, 10 ^ 6)) together with its decimal exponent,
accounting for the carry when rounding overflows to a 7th digit. -/
def sigDigits6 (m : Nat) (e : Int) : Nat × Int :=
  let x := decExp m e
  let n := roundScaled m e (5 - x)
  if n < 10 ^ 6 then (n, x) else (n / 10, x + 1)

/-- Strip trailing zero characters. -/
def stripZeros (l : List Char) : List Char :=
  (l.reverse.dropWhile (fun c => c = '0')).reverse

/-- Style f layout of 6 significant digits ds (most significant first)
whose leading digit has decimal exponent x, -4 ≤ x < 6: integer part,
then a fractional part with trailing zeros stripped and the decimal
point dropped when nothing follows it. -/
def gStyleF (ds : List Char) (x : Int) : List Char :=
  if 0 ≤ x then
    let ip := ds.take (x.toNat + 1)
    let fp := stripZeros (ds.drop (x.toNat + 1))
    ip ++ (if fp = [] then [] else '.' :: fp)
  else
    let fp := stripZeros (List.replicate (-(x + 1)).toNat '0' ++ ds)
    '0' :: '.' :: fp

/-- Style e layout: leading digit, stripped fraction, then the exponent
marker with an explicit sign and at least two exponent digits. -/
def gStyleE (ds : List Char) (x : Int) : List Char :=
  let fp := stripZeros (ds.drop 1)
  let ex := decStrOfNat x.natAbs
  let ex := if ex.length < 2 then '0' :: ex else ex
  ds.take 1 ++ (if fp = [] then [] else '.' :: fp) ++
    ('e' :: (if x < 0 then '-' else '+') :: ex)

/-- %g conversion of the positive value m * 2 ^ e with precision 6. -/
def gFormatPos (m : Nat) (e : Int) : List Char :=
  let p := sigDigits6 m e
  let ds := decStrOfNat p.1
  if -4 ≤ p.2 ∧ p.2 < 6 then gStyleF ds p.2 else gStyleE ds p.2

/-- Embedding of blood_f64_to_str (src/runtime/runtime.c:61-67):
snprintf of the double with format %g into a 64-byte buffer, then a copy
into an exactly sized owned allocation.  The finite double argument is
passed as the pair (m, e) with exact value m * 2 ^ e; %g output for the
magnitudes involved is far below 64 bytes, so no truncation is modelled. -/
def blood_f64_to_str (m e : Int) : List Char :=
  if m = 0 then ['0']
  else (if m < 0 then ['-'] else []) ++ gFormatPos m.natAbs e

/-- The rational value denoted by the dyadic pair (m, e). -/
def dyVal (m e : Int) : ℚ := (m : ℚ) * (2 : ℚ) ^ e

/-- The dyadic pair (m, e) is representable as a finite IEEE-754
binary64 value: 53-bit mantissa, exponent within the binary64 range. -/
def repF64 (m e : Int) : Prop := m.natAbs < 2 ^ 53 ∧ -1074 ≤ e ∧ e ≤ 971

instance (m e : Int) : Decidable (repF64 m e) := by
  unfold repF64; infer_instance

/-! ### Assertions -/

/-- Outcome of an assertion primitive: normal return (no output, no other
observable effect) or a process abort carrying the diagnostic written to
the error stream. -/
inductive AssertOutcome where
  | normal
  | aborted (diag : List Char)
deriving DecidableEq

/-- Embedding of blood_assert_eq_int (src/runtime/runtime.c:170-175):
on a = b nothing happens and control returns; on a ≠ b the diagnostic
"BLOOD ASSERTION FAILED: <a> != <b>" is written to stderr and the
process aborts. -/
def blood_assert_eq_int (a b : Int) : AssertOutcome :=
  if a ≠ b then
    .aborted (("BLOOD ASSERTION FAILED: ".toList) ++ intToDecStr a ++
      " != ".toList ++ intToDecStr b ++ ['\n'])
  else .normal

/-! ### Memory intrinsics -/

/-- Byte-addressed memory: a total map from addresses to byte values. -/
def Mem : Type := Nat → Nat

/-- Store one byte. -/
def writeByte (m : Mem) (a v : Nat) : Mem := fun x => if x = a then v else m x

/-- Store a list of bytes at consecutive addresses starting at a. -/
def writeBytes (m : Mem) (a : Nat) : List Nat → Mem
  | [] => m
  | b :: bs => writeBytes (writeByte m a b) (a + 1) bs

/-- Load n bytes from consecutive addresses starting at a. -/
def readBytes (m : Mem) (a : Nat) : Nat → List Nat
  | 0 => []
  | n + 1 => m a :: readBytes m (a + 1) n

/-- The w little-endian bytes of v (truncating v to w bytes, as the
machine store does). -/
def natToLE : Nat → Nat → List Nat
  | 0, _ => []
  | w + 1, v => (v % 256) :: natToLE w (v / 256)

/-- The Nat denoted by a little-endian byte list. -/
def leToNat : List Nat → Nat
  | [] => 0
  | b :: bs => b + 256 * leToNat bs

/-- Reinterpret a w-bit unsigned value as the signed value its two's
complement bit pattern denotes. -/
def fromTwosComp (w : Nat) (n : Nat) : Int :=
  if n < 2 ^ (w - 1) then (n : Int) else (n : Int) - 2 ^ w

/-- Embedding of ptr_write_i32 (src/runtime/runtime.c:233-235): store the
4-byte two's complement pattern of the int32 value at the address. -/
def ptr_write_i32 (m : Mem) (p : Nat) (v : Int) : Mem :=
  writeBytes m p (natToLE 4 (v % 2 ^ 32).toNat)

/-- Embedding of ptr_read_i32 (src/runtime/runtime.c:228-230): load 4
bytes from the address and interpret them as a two's complement int32. -/
def ptr_read_i32 (m : Mem) (p : Nat) : Int :=
  fromTwosComp 32 (leToNat (readBytes m p 4))

/-- Embedding of ptr_write_i64 (src/runtime/runtime.c:243-245). -/
def ptr_write_i64 (m : Mem) (p : Nat) (v : Int) : Mem :=
  writeBytes m p (natToLE 8 (v % 2 ^ 64).toNat)

/-- Embedding of ptr_read_i64 (src/runtime/runtime.c:238-240). -/
def ptr_read_i64 (m : Mem) (p : Nat) : Int :=
  fromTwosComp 64 (leToNat (readBytes m p 8))

/-- Embedding of ptr_write_u64 (src/runtime/runtime.c:253-255). -/
def ptr_write_u64 (m : Mem) (p : Nat) (v : Nat) : Mem :=
  writeBytes m p (natToLE 8 v)

/-- Embedding of ptr_read_u64 (src/runtime/runtime.c:248-250). -/
def ptr_read_u64 (m : Mem) (p : Nat) : Nat :=
  leToNat (readBytes m p 8)

/-! ### Bootstrap (main, src/runtime/runtime.c:269-283)

main is embedded as the trace of the externally visible actions it
performs, as a function of the process argument vector and of the entry
point outcome.  The event alphabet also names the actions the spec
attributes to StackGuard and ArgumentInit (resource-limit calls,
self re-exec, argument transfer) so that their absence from the trace of
main is a provable statement, not a modelling gap. -/

/-- Externally visible actions of the bootstrap. -/
inductive BEvent where
  /-- getrlimit on the stack resource: never performed by main. -/
  | getStackLimit
  /-- setrlimit of the stack soft limit to n: never performed by main. -/
  | setStackLimit (n : Nat)
  /-- execv of the same executable with the same argv: never performed
  by main. -/
  | execSelf
  /-- transfer of the argument vector to the external runtime: never
  performed by main (argc and argv are cast to void and discarded). -/
  | argTransfer (args : List (List Nat))
  /-- call of blood_runtime_init. -/
  | runtimeInit
  /-- invocation of blood_main. -/
  | entryInvoke
  /-- normal return of blood_main with value v. -/
  | entryReturn (v : Int)
  /-- call of blood_runtime_shutdown. -/
  | runtimeShutdown
  /-- return of v from main: the process terminates with exit status v. -/
  | processExit (v : Int)

/-- How the invocation of blood_main ends: a normal return with an int32
value, or a fatal abort (assertion failure) that terminates the process
on the spot. -/
inductive EntryOutcome where
  | returns (v : Int)
  | aborts

/-- Trace of main (src/runtime/runtime.c:269-283) given the process
argument vector and the entry point outcome: main casts argc and argv to
void, calls blood_runtime_init, invokes blood_main, and — when blood_main
returns normally — calls blood_runtime_shutdown and returns the captured
result; when blood_main aborts, the process ends inside the entry
invocation and nothing further runs. -/
def mainTrace (argv : List (List Nat)) (o : EntryOutcome) : List BEvent :=
  match o with
  | .returns v =>
      [.runtimeInit, .entryInvoke, .entryReturn v, .runtimeShutdown, .processExit v]
  | .aborts => [.runtimeInit, .entryInvoke]

/-- The spec minimum stack capacity: 64 MiB. -/
def stackMinBytes : Nat := 64 * 1024 * 1024

/-- Number of runtimeShutdown events in a trace. -/
def countShutdown : List BEvent → Nat
  | [] => 0
  | .runtimeShutdown :: t => countShutdown t + 1
  | _ :: t => countShutdown t

/-- Number of execSelf events in a trace. -/
def countExecSelf : List BEvent → Nat
  | [] => 0
  | .execSelf :: t => countExecSelf t + 1
  | _ :: t => countExecSelf t

/-- Does the trace contain any StackGuard action (reading or raising the
stack limit, or re-executing the process)? -/
def stackGuardActs : List BEvent → Bool
  | [] => false
  | .getStackLimit :: _ => true
  | .setStackLimit _ :: _ => true
  | .execSelf :: _ => true
  | _ :: t => stackGuardActs t

/-- Does the trace contain a transfer of the argument vector to the
external runtime? -/
def argTransferred : List BEvent → Bool
  | [] => false
  | .argTransfer _ :: _ => true
  | _ :: t => argTransferred t

/-- The stack soft limit after a trace runs, starting from limit init:
only setStackLimit events change it. -/
def finalStackLimit (init : Nat) : List BEvent → Nat
  | [] => init
  | .setStackLimit n :: t => finalStackLimit n t
  | _ :: t => finalStackLimit init t

/-- Event e occurs strictly before event f in trace l. -/
def precedes (e f : BEvent) (l : List BEvent) : Prop :=
  ∃ i j, i < j ∧ l.get? i = some e ∧ l.get? j = some f

/-- Does the trace contain a runtimeShutdown event? -/
def hasShutdown : List BEvent → Bool
  | [] => false
  | .runtimeShutdown :: _ => true
  | _ :: t => hasShutdown t

/-- The all-zero memory, used to instantiate universally quantified
memory statements. -/
def mem0 : Mem := fun _ => 0

/-! ## Theorems -/

/-- Claim C1: in every run in which blood_main returns normally, main performs
runtime initialization strictly before invoking the entry point, performs
runtime shutdown exactly once strictly after the entry point returns,
and terminates the process with exit status equal to the entry point
result; shutdown happens if and only if the entry point returns
normally. -/
theorem claim_C1 : ∀ (argv : List (List Nat)) (v : Int),
    precedes .runtimeInit .entryInvoke (mainTrace argv (.returns v))
    ∧ precedes (.entryReturn v) .runtimeShutdown (mainTrace argv (.returns v))
    ∧ countShutdown (mainTrace argv (.returns v)) = 1
    ∧ (mainTrace argv (.returns v)).getLast? = some (.processExit v)
    ∧ (∀ o : EntryOutcome,
        hasShutdown (mainTrace argv o) = true ↔ ∃ u, o = .returns u) := by
  intro argv v
  refine ⟨⟨0, 1, by omega, rfl, rfl⟩, ⟨2, 3, by omega, rfl, rfl⟩, rfl, rfl, ?_⟩
  intro o
  cases o with
  | returns u =>
      simp only [mainTrace, hasShutdown]
      exact ⟨fun _ => ⟨u, rfl⟩, fun _ => by simp⟩
  | aborts =>
      simp only [mainTrace, hasShutdown]
      constructor
      · intro h; exact absurd h (by simp)
      · rintro ⟨u, h⟩; cases h

/-- Witness for C1 at a concrete argument vector and entry result. -/
theorem claim_C1_witness :
    precedes .runtimeInit .entryInvoke (mainTrace [[97]] (.returns 3)) :=
  (claim_C1 [[97]] 3).1

/-- Claim C2 counterexample: in a run whose initial stack soft limit is 0,
which is below the 64 MiB minimum, main performs no StackGuard action at
all — it never reads or raises the stack limit and never re-executes —
and the soft limit is still 0 when user code runs, contradicting the
claimed guarantee of a soft limit of at least the minimum and the
claimed raise-and-re-exec behaviour. -/
theorem claim_C2_cex :
    0 < stackMinBytes
    ∧ stackGuardActs (mainTrace [[98]] (.returns 0)) = false
    ∧ finalStackLimit 0 (mainTrace [[98]] (.returns 0)) = 0
    ∧ finalStackLimit 0 (mainTrace [[98]] (.returns 0)) < stackMinBytes
    ∧ countExecSelf (mainTrace [[98]] (.returns 0)) = 0 := by
  refine ⟨by decide, rfl, rfl, by decide, rfl⟩

/-- Claim C2 as amended: the bootstrap performs no stack-limit management: it
never reads or raises the stack soft limit and never re-executes the
process; every run keeps its initial stack soft limit, and trivially
re-exec happens at most once (in fact never) and nothing about the stack
limit is ever fatal. -/
theorem claim_C2_amended : ∀ (argv : List (List Nat)) (o : EntryOutcome) (init : Nat),
    stackGuardActs (mainTrace argv o) = false
    ∧ finalStackLimit init (mainTrace argv o) = init
    ∧ countExecSelf (mainTrace argv o) = 0
    ∧ countExecSelf (mainTrace argv o) ≤ 1 := by
  intro argv o init
  cases o <;> exact ⟨rfl, rfl, rfl, Nat.zero_le 1⟩

/-- Claim C3 counterexample: in a run with the concrete two-element argument
vector, main transfers no argument count and no argument array to the
external runtime (argc and argv are cast to void and dropped;
blood_runtime_init takes no parameters), contradicting the claimed
transfer. -/
theorem claim_C3_cex :
    argTransferred (mainTrace [[97], [98]] (.returns 0)) = false := rfl

/-- Claim C3 as amended: the bootstrap receives the argument vector at process
start but ignores it: no argument transfer to the external runtime ever
occurs, and the run is entirely independent of the argument vector (in
particular no transformation, filtering, or validation happens). -/
theorem claim_C3_amended : ∀ (argv : List (List Nat)) (o : EntryOutcome),
    argTransferred (mainTrace argv o) = false
    ∧ mainTrace argv o = mainTrace [] o := by
  intro argv o
  cases o <;> exact ⟨rfl, rfl⟩

/-! ### String lemmas -/

theorem nulFree_cstrContents (s : List Nat) : nulFree (cstrContents s) := by
  induction s with
  | nil => intro x hx; cases hx
  | cons a t ih =>
      intro x hx
      by_cases h : a = 0
      · subst h; simp [cstrContents, List.takeWhile] at hx
      · have ha : (a != 0) = true := by simpa using h
        simp only [cstrContents, List.takeWhile, ha] at hx
        cases hx with
        | head => exact h
        | tail _ hmem => exact ih x hmem

theorem cstrContents_eq_self {s : List Nat} (h : nulFree s) : cstrContents s = s := by
  induction s with
  | nil => rfl
  | cons a t ih =>
      have ha : (a != 0) = true := by simpa using h a (List.mem_cons_self a t)
      have ht : nulFree t := fun x hx => h x (List.mem_cons_of_mem a hx)
      simp only [cstrContents, List.takeWhile, ha]
      exact congrArg (a :: ·) (ih ht)

theorem cstrContents_append (x y : List Nat) (h : nulFree x) :
    cstrContents (x ++ y) = x ++ cstrContents y := by
  induction x with
  | nil => rfl
  | cons a t ih =>
      have ha : (a != 0) = true := by simpa using h a (List.mem_cons_self a t)
      have ht : nulFree t := fun b hb => h b (List.mem_cons_of_mem a hb)
      simp only [List.cons_append, cstrContents, List.takeWhile, ha]
      exact congrArg (a :: ·) (ih ht)

theorem cstrContents_idem (s : List Nat) :
    cstrContents (cstrContents s) = cstrContents s :=
  cstrContents_eq_self (nulFree_cstrContents s)

/-- Claim C4: blood_str_concat treats an absent input as empty — it equals
itself applied to the normalized inputs — and for nul-free texts the
returned buffer contents are exactly the concatenation of the
normalized inputs. -/
theorem claim_C4 : ∀ a b : Option (List Nat),
    blood_str_concat a b = blood_str_concat (some (normalize a)) (some (normalize b))
    ∧ (nulFree (normalize a) → nulFree (normalize b) →
        blood_str_concat a b = normalize a ++ normalize b) := by
  intro a b
  refine ⟨rfl, fun h1 h2 => ?_⟩
  show cstrContents (normalize a) ++ cstrContents (normalize b)
      = normalize a ++ normalize b
  rw [cstrContents_eq_self h1, cstrContents_eq_self h2]

/-- Witness for C4: concatenating the text "hi" with an absent input. -/
theorem claim_C4_witness : blood_str_concat (some [104, 105]) none = [104, 105] :=
  (claim_C4 (some [104, 105]) none).2 (by decide) (by decide)

/-- Claim C7: the length of a concatenation is the sum of the lengths of the
normalized inputs; blood_str_len is strlen on a present value and zero
on an absent one. -/
theorem claim_C7 : ∀ a b : Option (List Nat),
    blood_str_len (some (blood_str_concat a b))
      = blood_str_len (some (normalize a)) + blood_str_len (some (normalize b))
    ∧ blood_str_len none = 0
    ∧ (∀ s, blood_str_len (some s) = strlen s)
    ∧ blood_str_len a = blood_str_len (some (normalize a)) := by
  intro a b
  refine ⟨?_, rfl, fun s => rfl, ?_⟩
  · show strlen (blood_str_concat a b) = strlen (normalize a) + strlen (normalize b)
    unfold strlen blood_str_concat
    rw [cstrContents_append _ _ (nulFree_cstrContents _), cstrContents_idem]
    exact List.length_append _ _
  · cases a with
    | none => rfl
    | some s => rfl

/-! ### Comparison lemmas -/

theorem cmpBytes_self : ∀ s : List Nat, cmpBytes s s = 0
  | [] => rfl
  | a :: t => by simp [cmpBytes, cmpBytes_self t]

theorem cmpBytes_eq_zero : ∀ a b : List Nat, cmpBytes a b = 0 ↔ a = b := by
  intro a
  induction a with
  | nil => intro b; cases b <;> simp [cmpBytes]
  | cons x xs ih =>
      intro b
      cases b with
      | nil => simp [cmpBytes]
      | cons y ys =>
          simp only [cmpBytes]
          split_ifs with h1 h2
          · refine ⟨fun h => absurd h (by decide), fun h => ?_⟩
            injection h with hxy _
            omega
          · refine ⟨fun h => absurd h (by decide), fun h => ?_⟩
            injection h with hxy _
            omega
          · have hxy : x = y := by omega
            subst hxy
            simp [ih ys]

theorem cmpBytes_antisymm : ∀ a b : List Nat, cmpBytes b a = -(cmpBytes a b) := by
  intro a
  induction a with
  | nil => intro b; cases b <;> simp [cmpBytes]
  | cons x xs ih =>
      intro b
      cases b with
      | nil => simp [cmpBytes]
      | cons y ys =>
          simp only [cmpBytes]
          split_ifs <;> first | omega | exact ih ys

theorem cmpBytes_lt_trans : ∀ a b c : List Nat,
    cmpBytes a b < 0 → cmpBytes b c < 0 → cmpBytes a c < 0 := by
  intro a
  induction a with
  | nil =>
      intro b c hab hbc
      cases b with
      | nil => exact absurd hab (show ¬ (0 : Int) < 0 by decide)
      | cons y ys =>
          cases c with
          | nil => exact absurd hbc (show ¬ (1 : Int) < 0 by decide)
          | cons z zs => exact (show (-1 : Int) < 0 by decide)
  | cons x xs ih =>
      intro b c hab hbc
      cases b with
      | nil => exact absurd hab (show ¬ (1 : Int) < 0 by decide)
      | cons y ys =>
          cases c with
          | nil => exact absurd hbc (show ¬ (1 : Int) < 0 by decide)
          | cons z zs =>
              simp only [cmpBytes] at hab hbc ⊢
              split_ifs at hab hbc ⊢ <;>
                first
                  | omega
                  | exact ih ys zs hab hbc

theorem cmpBytes_lt_iff_lex : ∀ a b : List Nat,
    cmpBytes a b < 0 ↔ List.Lex (· < ·) a b := by
  intro a
  induction a with
  | nil =>
      intro b
      cases b with
      | nil => simp [cmpBytes]
      | cons z zs =>
          exact ⟨fun _ => List.Lex.nil, fun _ => show (-1 : Int) < 0 by decide⟩
  | cons x xs ih =>
      intro b
      cases b with
      | nil =>
          exact ⟨fun h => absurd h (show ¬ (1 : Int) < 0 by decide),
            fun h => absurd h (by simp)⟩
      | cons y ys =>
          simp only [cmpBytes]
          split_ifs with h1 h2
          · exact ⟨fun _ => List.Lex.rel h1, fun _ => by decide⟩
          · refine ⟨fun h => absurd h (by decide), fun h => ?_⟩
            cases h with
            | cons h3 => omega
            | rel h3 => omega
          · have hxy : x = y := by omega
            subst hxy
            rw [List.Lex.cons_iff]
            exact ih ys

/-- Claim C5: blood_str_cmp is reflexive to zero, sorts absent before any
present value, is consistent with byte-lexicographic order on present
nul-free texts, and is a strict weak ordering: asymmetric, transitive,
with transitive incomparability. -/
theorem claim_C5 : ∀ x y z : Option (List Nat),
    blood_str_cmp x x = 0
    ∧ blood_str_cmp none none = 0
    ∧ (∀ s, blood_str_cmp none (some s) < 0 ∧ 0 < blood_str_cmp (some s) none)
    ∧ (∀ a b, nulFree a → nulFree b →
        (blood_str_cmp (some a) (some b) < 0 ↔ List.Lex (· < ·) a b))
    ∧ (blood_str_cmp x y < 0 → 0 < blood_str_cmp y x)
    ∧ (blood_str_cmp x y < 0 → blood_str_cmp y z < 0 → blood_str_cmp x z < 0)
    ∧ (blood_str_cmp x y = 0 → blood_str_cmp y z = 0 → blood_str_cmp x z = 0) := by
  intro x y z
  refine ⟨?_, rfl,
    fun s => ⟨show (-1 : Int) < 0 by decide, show (0 : Int) < 1 by decide⟩,
    ?_, ?_, ?_, ?_⟩
  · cases x with
    | none => rfl
    | some s => exact cmpBytes_self (cstrContents s)
  · intro a b h1 h2
    show cmpBytes (cstrContents a) (cstrContents b) < 0 ↔ _
    rw [cstrContents_eq_self h1, cstrContents_eq_self h2]
    exact cmpBytes_lt_iff_lex a b
  · cases x with
    | none =>
        cases y with
        | none => intro h; exact absurd h (show ¬ (0 : Int) < 0 by decide)
        | some t => intro _; exact (show (0 : Int) < 1 by decide)
    | some s =>
        cases y with
        | none => intro h; exact absurd h (show ¬ (1 : Int) < 0 by decide)
        | some t =>
            intro h
            change cmpBytes (cstrContents s) (cstrContents t) < 0 at h
            change (0 : Int) < cmpBytes (cstrContents t) (cstrContents s)
            rw [cmpBytes_antisymm]
            omega
  · cases x with
    | none =>
        cases y with
        | none => intro h1 _; exact absurd h1 (show ¬ (0 : Int) < 0 by decide)
        | some t =>
            cases z with
            | none => intro _ h2; exact absurd h2 (show ¬ (1 : Int) < 0 by decide)
            | some u => intro _ _; exact (show (-1 : Int) < 0 by decide)
    | some s =>
        cases y with
        | none => intro h1 _; exact absurd h1 (show ¬ (1 : Int) < 0 by decide)
        | some t =>
            cases z with
            | none => intro _ h2; exact absurd h2 (show ¬ (1 : Int) < 0 by decide)
            | some u =>
                intro h1 h2
                change cmpBytes (cstrContents s) (cstrContents t) < 0 at h1
                change cmpBytes (cstrContents t) (cstrContents u) < 0 at h2
                change cmpBytes (cstrContents s) (cstrContents u) < 0
                exact cmpBytes_lt_trans _ _ _ h1 h2
  · cases x with
    | none =>
        cases y with
        | none => intro _ h2; exact h2
        | some t => intro h1 _; exact absurd h1 (show ¬ (-1 : Int) = 0 by decide)
    | some s =>
        cases y with
        | none => intro h1 _; exact absurd h1 (show ¬ (1 : Int) = 0 by decide)
        | some t =>
            cases z with
            | none => intro _ h2; exact absurd h2 (show ¬ (1 : Int) = 0 by decide)
            | some u =>
                intro h1 h2
                change cmpBytes (cstrContents s) (cstrContents t) = 0 at h1
                change cmpBytes (cstrContents t) (cstrContents u) = 0 at h2
                change cmpBytes (cstrContents s) (cstrContents u) = 0
                rw [(cmpBytes_eq_zero _ _).mp h1]
                exact h2

/-- Witness for C5: transitivity applied at three concrete texts. -/
theorem claim_C5_witness : blood_str_cmp (some [97]) (some [99]) < 0 :=
  (claim_C5 (some [97]) (some [98]) (some [99])).2.2.2.2.2.1 (by decide) (by decide)

/-! ### Decimal digit lemmas -/

theorem digitsAux_congr : ∀ (f g n : Nat), n ≤ f → n ≤ g → digitsAux f n = digitsAux g n := by
  intro f
  induction f with
  | zero =>
      intro g n hf _
      have hn : n = 0 := Nat.le_zero.mp hf
      subst hn
      cases g <;> rfl
  | succ f ih =>
      intro g n hf hg
      cases n with
      | zero => cases g <;> rfl
      | succ m =>
          cases g with
          | zero => exact absurd hg (by omega)
          | succ g₂ =>
              show ((m + 1) % 10) :: digitsAux f ((m + 1) / 10)
                  = ((m + 1) % 10) :: digitsAux g₂ ((m + 1) / 10)
              exact congrArg _ (ih g₂ ((m + 1) / 10) (by omega) (by omega))

theorem digits10_def (n : Nat) (h : n ≠ 0) :
    digits10 n = n % 10 :: digits10 (n / 10) := by
  cases n with
  | zero => exact absurd rfl h
  | succ m =>
      show ((m + 1) % 10) :: digitsAux m ((m + 1) / 10)
          = ((m + 1) % 10) :: digitsAux ((m + 1) / 10) ((m + 1) / 10)
      exact congrArg _ (digitsAux_congr m ((m + 1) / 10) ((m + 1) / 10) (by omega) le_rfl)

theorem digits10_length_le : ∀ n k : Nat, n < 10 ^ k → (digits10 n).length ≤ k := by
  intro n
  induction n using Nat.strong_induction_on with
  | _ n ih =>
      intro k hk
      by_cases h : n = 0
      · subst h; exact Nat.zero_le k
      · have hk0 : k ≠ 0 := by
          intro h0
          subst h0
          simp only [pow_zero] at hk
          omega
        rw [digits10_def n h]
        have hpow : 10 ^ k = 10 ^ (k - 1) * 10 := by
          conv_lhs => rw [← Nat.sub_add_cancel (Nat.one_le_iff_ne_zero.mpr hk0)]
          rw [pow_succ]
        rw [hpow] at hk
        have hdiv : n / 10 < 10 ^ (k - 1) := by omega
        have := ih (n / 10) (Nat.div_lt_self (Nat.pos_of_ne_zero h) (by omega)) (k - 1) hdiv
        simp only [List.length_cons]
        omega

theorem decStrOfNat_length_le (n k : Nat) (h1 : n < 10 ^ k) (h2 : 1 ≤ k) :
    (decStrOfNat n).length ≤ k := by
  unfold decStrOfNat
  split_ifs with h
  · simpa using h2
  · simpa using digits10_length_le n k h1

theorem intToDecStr_length_le (v : Int) (k : Nat) (h1 : v.natAbs < 10 ^ k) (h2 : 1 ≤ k) :
    (intToDecStr v).length ≤ k + 1 := by
  unfold intToDecStr
  have := decStrOfNat_length_le v.natAbs k h1 h2
  split_ifs with h
  · simp only [List.length_cons]
    omega
  · omega

/-- Claim C10: for every in-range int32 and int64 input the full decimal
representation (at most 20 digits, an optional sign and the terminator)
fits the 32-byte conversion buffer, so the snprintf step never truncates
and the returned buffer holds the complete representation. -/
theorem claim_C10 : ∀ n : Int,
    (-(2 ^ 31) ≤ n → n < 2 ^ 31 →
      blood_int_to_str n = intToDecStr n
      ∧ (intToDecStr n).length + 1 ≤ 32
      ∧ (digits10 n.natAbs).length ≤ 20)
    ∧ (-(2 ^ 63) ≤ n → n < 2 ^ 63 →
      blood_i64_to_str n = intToDecStr n
      ∧ (intToDecStr n).length + 1 ≤ 32
      ∧ (digits10 n.natAbs).length ≤ 20) := by
  intro n
  constructor
  · intro hlo hhi
    have habs : n.natAbs < 10 ^ 19 := by
      norm_num at hlo hhi ⊢
      omega
    have hlen := intToDecStr_length_le n 19 habs (by norm_num)
    have hdig := digits10_length_le n.natAbs 19 habs
    exact ⟨List.take_of_length_le (by omega), by omega, by omega⟩
  · intro hlo hhi
    have habs : n.natAbs < 10 ^ 19 := by
      norm_num at hlo hhi ⊢
      omega
    have hlen := intToDecStr_length_le n 19 habs (by norm_num)
    have hdig := digits10_length_le n.natAbs 19 habs
    exact ⟨List.take_of_length_le (by omega), by omega, by omega⟩

/-- Witness for C10 at the in-range input -42. -/
theorem claim_C10_witness :
    blood_int_to_str (-42) = intToDecStr (-42)
    ∧ blood_i64_to_str (-42) = intToDecStr (-42) :=
  ⟨((claim_C10 (-42)).1 (by decide) (by decide)).1,
   ((claim_C10 (-42)).2 (by decide) (by decide)).1⟩

/-- Claim C9: blood_assert_eq_int returns normally, with no output, on equal
arguments, and on unequal arguments aborts with a diagnostic containing
the decimal renderings of both values. -/
theorem claim_C9 : ∀ a b : Int,
    (a = b → blood_assert_eq_int a b = .normal)
    ∧ (a ≠ b → ∃ d, blood_assert_eq_int a b = .aborted d
        ∧ (∃ u w, d = u ++ intToDecStr a ++ w)
        ∧ (∃ u w, d = u ++ intToDecStr b ++ w)) := by
  intro a b
  constructor
  · intro h
    subst h
    simp [blood_assert_eq_int]
  · intro h
    refine ⟨("BLOOD ASSERTION FAILED: ".toList) ++ intToDecStr a ++
      " != ".toList ++ intToDecStr b ++ ['\n'], ?_, ?_, ?_⟩
    · simp [blood_assert_eq_int, h]
    · exact ⟨"BLOOD ASSERTION FAILED: ".toList,
        " != ".toList ++ intToDecStr b ++ ['\n'], by simp [List.append_assoc]⟩
    · exact ⟨"BLOOD ASSERTION FAILED: ".toList ++ intToDecStr a ++ " != ".toList,
        ['\n'], by simp [List.append_assoc]⟩

/-- Witness for C9 at the concrete pairs (5,5) and (5,6). -/
theorem claim_C9_witness :
    blood_assert_eq_int 5 5 = .normal
    ∧ ∃ d, blood_assert_eq_int 5 6 = .aborted d
        ∧ (∃ u w, d = u ++ intToDecStr 5 ++ w)
        ∧ (∃ u w, d = u ++ intToDecStr 6 ++ w) :=
  ⟨(claim_C9 5 5).1 rfl, (claim_C9 5 6).2 (by decide)⟩

/-- Claim C6 counterexample to the round-trippable format qualifier: 1 and
1 + 2 ^ (-52), both finite binary64-representable values and distinct as
rationals, render to the same text under the %g conversion, so the
format used by blood_f64_to_str cannot round-trip every 64-bit float. -/
theorem claim_C6_cex :
    blood_f64_to_str 1 0 = blood_f64_to_str (2 ^ 52 + 1) (-52)
    ∧ dyVal 1 0 ≠ dyVal (2 ^ 52 + 1) (-52)
    ∧ repF64 1 0
    ∧ repF64 (2 ^ 52 + 1) (-52) := by
  refine ⟨by decide, ?_, by decide, by decide⟩
  unfold dyVal
  intro h
  rw [zpow_zero, mul_one, zpow_neg,
    eq_mul_inv_iff_mul_eq₀ (by positivity)] at h
  push_cast at h
  norm_num at h

/-- Claim C6 as amended: numeric-to-text conversion is exact for the stated
cases: 0 and -42 render as "0" and "-42" through both integer
converters, and the float converter renders 3.5 (the finite binary64
value 7 * 2 ^ (-1)) as "3.5"; the float format is the locale-independent
general decimal format with six significant digits (C %g), which is not
round-trippable. -/
theorem claim_C6_amended :
    blood_int_to_str 0 = ['0']
    ∧ blood_int_to_str (-42) = ['-', '4', '2']
    ∧ blood_i64_to_str 0 = ['0']
    ∧ blood_i64_to_str (-42) = ['-', '4', '2']
    ∧ blood_f64_to_str 7 (-1) = ['3', '.', '5']
    ∧ repF64 7 (-1) := by
  refine ⟨by decide, by decide, by decide, by decide, by decide, by decide⟩

/-! ### Memory intrinsic lemmas -/

theorem writeBytes_apply_lt : ∀ (bs : List Nat) (m : Mem) (a x : Nat),
    x < a → writeBytes m a bs x = m x := by
  intro bs
  induction bs with
  | nil => intro m a x _; rfl
  | cons b t ih =>
      intro m a x hx
      show writeBytes (writeByte m a b) (a + 1) t x = m x
      rw [ih (writeByte m a b) (a + 1) x (by omega)]
      unfold writeByte
      rw [if_neg (by omega)]

theorem natToLE_length : ∀ w v : Nat, (natToLE w v).length = w := by
  intro w
  induction w with
  | zero => intro v; rfl
  | succ w ih => intro v; simp [natToLE, ih]

theorem readBytes_writeBytes : ∀ (bs : List Nat) (m : Mem) (a : Nat),
    readBytes (writeBytes m a bs) a bs.length = bs := by
  intro bs
  induction bs with
  | nil => intro m a; rfl
  | cons b t ih =>
      intro m a
      show (writeBytes (writeByte m a b) (a + 1) t) a
          :: readBytes (writeBytes (writeByte m a b) (a + 1) t) (a + 1) t.length
          = b :: t
      rw [writeBytes_apply_lt t (writeByte m a b) (a + 1) a (Nat.lt_succ_self a),
        ih (writeByte m a b) (a + 1)]
      show (if a = a then b else m a) :: t = b :: t
      rw [if_pos rfl]

theorem leToNat_natToLE : ∀ w v : Nat, v < 256 ^ w → leToNat (natToLE w v) = v := by
  intro w
  induction w with
  | zero =>
      intro v hv
      simp only [pow_zero] at hv
      show (0 : Nat) = v
      omega
  | succ w ih =>
      intro v hv
      show (v % 256) + 256 * leToNat (natToLE w (v / 256)) = v
      have hdiv : v / 256 < 256 ^ w := by
        have hp : (256 : Nat) ^ (w + 1) = 256 ^ w * 256 := pow_succ 256 w
        rw [hp] at hv
        omega
      rw [ih (v / 256) hdiv]
      omega

/-- Claim C8: for each of the three widths, writing a value with the matching
ptr_write intrinsic and reading it back with the matching ptr_read
intrinsic at the same address returns the exact original value, for
every memory, address and in-range value. -/
theorem claim_C8 :
    (∀ (m : Mem) (p : Nat) (v : Int), -(2 ^ 31) ≤ v → v < 2 ^ 31 →
      ptr_read_i32 (ptr_write_i32 m p v) p = v)
    ∧ (∀ (m : Mem) (p : Nat) (v : Int), -(2 ^ 63) ≤ v → v < 2 ^ 63 →
      ptr_read_i64 (ptr_write_i64 m p v) p = v)
    ∧ (∀ (m : Mem) (p : Nat) (v : Nat), v < 2 ^ 64 →
      ptr_read_u64 (ptr_write_u64 m p v) p = v) := by
  refine ⟨?_, ?_, ?_⟩
  · intro m p v hlo hhi
    have e1 : (2 : Int) ^ 31 = 2147483648 := by norm_num
    have e2 : (2 : Int) ^ 32 = 4294967296 := by norm_num
    have e3 : (2 : Nat) ^ 31 = 2147483648 := by norm_num
    have e4 : (256 : Nat) ^ 4 = 4294967296 := by norm_num
    rw [e1] at hlo hhi
    unfold ptr_read_i32 ptr_write_i32
    have hu : (v % 2 ^ 32).toNat < 256 ^ 4 := by
      rw [e2, e4]
      omega
    have hr : readBytes (writeBytes m p (natToLE 4 (v % 2 ^ 32).toNat)) p 4
        = natToLE 4 (v % 2 ^ 32).toNat := by
      have h := readBytes_writeBytes (natToLE 4 (v % 2 ^ 32).toNat) m p
      rwa [natToLE_length] at h
    rw [hr, leToNat_natToLE 4 _ hu]
    unfold fromTwosComp
    rw [show (32 - 1 : Nat) = 31 from rfl, e3, e2]
    split_ifs with h <;> omega
  · intro m p v hlo hhi
    have e1 : (2 : Int) ^ 63 = 9223372036854775808 := by norm_num
    have e2 : (2 : Int) ^ 64 = 18446744073709551616 := by norm_num
    have e3 : (2 : Nat) ^ 63 = 9223372036854775808 := by norm_num
    have e4 : (256 : Nat) ^ 8 = 18446744073709551616 := by norm_num
    rw [e1] at hlo hhi
    unfold ptr_read_i64 ptr_write_i64
    have hu : (v % 2 ^ 64).toNat < 256 ^ 8 := by
      rw [e2, e4]
      omega
    have hr : readBytes (writeBytes m p (natToLE 8 (v % 2 ^ 64).toNat)) p 8
        = natToLE 8 (v % 2 ^ 64).toNat := by
      have h := readBytes_writeBytes (natToLE 8 (v % 2 ^ 64).toNat) m p
      rwa [natToLE_length] at h
    rw [hr, leToNat_natToLE 8 _ hu]
    unfold fromTwosComp
    rw [show (64 - 1 : Nat) = 63 from rfl, e3, e2]
    split_ifs with h <;> omega
  · intro m p v hv
    have e2 : (2 : Nat) ^ 64 = 18446744073709551616 := by norm_num
    have e4 : (256 : Nat) ^ 8 = 18446744073709551616 := by norm_num
    rw [e2] at hv
    unfold ptr_read_u64 ptr_write_u64
    have hr : readBytes (writeBytes m p (natToLE 8 v)) p 8 = natToLE 8 v := by
      have h := readBytes_writeBytes (natToLE 8 v) m p
      rwa [natToLE_length] at h
    rw [hr]
    exact leToNat_natToLE 8 v (by rw [e4]; omega)

/-- Witness for C8 at concrete memories, addresses and values. -/
theorem claim_C8_witness :
    ptr_read_i32 (ptr_write_i32 mem0 100 (-7)) 100 = -7
    ∧ ptr_read_i64 (ptr_write_i64 mem0 8 (-1)) 8 = -1
    ∧ ptr_read_u64 (ptr_write_u64 mem0 0 (2 ^ 63 + 5)) 0 = 2 ^ 63 + 5 :=
  ⟨claim_C8.1 mem0 100 (-7) (by decide) (by decide),
   claim_C8.2.1 mem0 8 (-1) (by decide) (by decide),
   claim_C8.2.2 mem0 0 (2 ^ 63 + 5) (by decide)⟩

end Blood
